import Mathlib

/-!
Verification of the simplex-tree core of the libfive kernel
(`src/libfive/src/render/brep/simplex/simplex_tree.cpp`), stated over a
shallow embedding of that file.  Helper types that the file consumes but
whose implementation lives outside the sources at hand (`NeighborIndex`,
`CornerIndex`, `SimplexNeighbors::getIndex`, the `QEF` accumulator) are
modelled from the specification's own description of them; every such
definition is marked `Modelled from the spec:` in its doc comment.
-/

namespace Libfive

/-- Interval tag: the three-valued result of interval evaluation, plus the
UNKNOWN initial sentinel (spec §3, `Interval` in the source). -/
inductive Interval : Type where
  | EMPTY : Interval
  | FILLED : Interval
  | AMBIGUOUS : Interval
  | UNKNOWN : Interval
deriving DecidableEq

/-- Modelled from the spec: a `NeighborIndex` value in `[0, 3^N)` is a base-3
digit per axis, with LOW = 0, FLOATING = 1, HIGH = 2.  `digit i d` is the
digit of subspace `i` on axis `d`. -/
def digit (i d : ℕ) : ℕ := i / 3 ^ d % 3

/-- Bitmask with bit `d` (for `d < n`) set exactly when `p d` holds; used to
build the `floating` / `pos` / `fixed` masks that `NeighborIndex` exposes. -/
def maskOf : ℕ → (ℕ → Bool) → ℕ
  | 0, _ => 0
  | n + 1, p => Nat.bit (p 0) (maskOf n (fun d => p (d + 1)))

/-- Modelled from the spec: the `floating` mask of a subspace — one bit per
floating axis (digit = 1). -/
def floatingMask (n i : ℕ) : ℕ := maskOf n (fun d => digit i d == 1)

/-- Modelled from the spec: the `pos` mask — one bit per non-floating axis
that sits on the HIGH side (digit = 2). -/
def posMask (n i : ℕ) : ℕ := maskOf n (fun d => digit i d == 2)

/-- Modelled from the spec: the `fixed<N>` mask — the complement of
`floating` over the first `n` axes. -/
def fixedMask (n i : ℕ) : ℕ := maskOf n (fun d => digit i d != 1)

/-- Modelled from the spec: `dimension` is the number of floating axes of a
subspace. -/
def dimension (n i : ℕ) : ℕ :=
  ((List.range n).filter (fun d => digit i d == 1)).length

/-- Modelled from the spec: `a.contains b` holds iff every axis fixed in `a`
is fixed identically in `b`. -/
def contains (n a b : ℕ) : Bool :=
  (List.range n).all (fun d => digit a d == 1 || digit a d == digit b d)

/-- Modelled from the spec: rebuild a `NeighborIndex` from a `pos` mask and a
`floating` mask — the digit of each axis is 1 if floating, else 2 if the pos
bit is set, else 0. -/
def fromPosAndFloating : ℕ → ℕ → ℕ → ℕ
  | 0, _, _ => 0
  | n + 1, p, f =>
      (if f % 2 = 1 then 1 else if p % 2 = 1 then 2 else 0)
      + 3 * fromPosAndFloating n (p / 2) (f / 2)

/-- Pointwise update of a function, standing in for an in-place store of one
value per subspace object. -/
def updFun {Q : Type} (f : ℕ → Q) (x : ℕ) (v : Q) : ℕ → Q :=
  fun y => if y = x then v else f y

/-- Translated from `SimplexTree<N>::collectChildren` (the loop over axes at
lines 441–446): the per-(child,subspace) filter of the QEF aggregation.  For
every fixed axis of subspace `j`, either `j`'s pos bit or the child corner's
bit on that axis must be set, otherwise the contribution is dropped. -/
def contributionValid (n c j : ℕ) : Bool :=
  (List.range n).foldl
    (fun valid d =>
      if (fixedMask n j).testBit d then
        valid && ((posMask n j).testBit d || c.testBit d)
      else valid)
    true

/-- Translated from `SimplexTree<N>::collectChildren` (lines 458–472): the
parent subspace receiving child `c`'s subspace-`j` QEF.  The guard
faithfully reproduces the source comparison
`(pos & (1 << d)) != (child.i & (1 << N))`, including its use of `N` (not
`d`) in the right-hand shift. -/
def collectTarget (n c j : ℕ) : ℕ :=
  let floating := floatingMask n j
  let pos := posMask n j
  let res := (List.range n).foldl
    (fun (st : ℕ × ℕ) d =>
      if floating.testBit d || ((pos &&& 2 ^ d) != (c &&& 2 ^ n)) then
        (st.1 ||| 2 ^ d, st.2)
      else
        (st.1, st.2 ||| (pos &&& 2 ^ d)))
    (0, 0)
  fromPosAndFloating n res.2 res.1

/-- Follows the claim's words (and the comment at lines 455–457 of the
source): every floating axis of `j` stays floating; each fixed axis keeps
its position exactly when the child corner's side on that axis agrees with
`j`'s side, and is relaxed to floating otherwise. -/
def intendedTarget (n c j : ℕ) : ℕ :=
  let floating := floatingMask n j
  let pos := posMask n j
  let res := (List.range n).foldl
    (fun (st : ℕ × ℕ) d =>
      if floating.testBit d || (pos.testBit d != c.testBit d) then
        (st.1 ||| 2 ^ d, st.2)
      else
        (st.1, st.2 ||| (pos &&& 2 ^ d)))
    (0, 0)
  fromPosAndFloating n res.2 res.1

/-- Record of the constrained minimisation that `Unroller::operator()`
performs for one subspace `s`: the list of subspace indices whose QEFs are
summed (lines 154–159, each term projected by `qef.sub<SubspaceFloating>()`),
the projection mask, and the mask with which the region is restricted for
`solveBounded` (line 161).  The `QEF` accumulator and `solveBounded` are
external to the source file and stay opaque; the call is represented by
exactly the data the source passes to them. -/
structure UnrollerSolveCall where
  sources : List ℕ
  projMask : ℕ
  regionMask : ℕ
deriving DecidableEq

/-- Translated from `Unroller<BaseDimension, SubspaceIndex_>::operator()`
(lines 147–162): for subspace `s`, the QEFs summed are those of every
subspace `i` in `[0, 3^n)` with `SubspaceIndex.contains(NeighborIndex(i))`,
each projected to `s`'s floating axes, and the minimisation runs over
`region.subspace<floating(s)>()`. -/
def unrollerSolveCall (n s : ℕ) : UnrollerSolveCall :=
  { sources := (List.range (3 ^ n)).filter (fun i => contains n s i)
    projMask := floatingMask n s
    regionMask := floatingMask n s }

/-- Follows the claim's words: the subspaces `r` with `r ⊇ s` — the
higher-dimensional subspaces of the same cell containing `s` (those whose
`contains` accepts `s`). -/
def claimedQEFSources (n s : ℕ) : List ℕ :=
  (List.range (3 ^ n)).filter (fun r => contains n r s)

/-- Translated from the QEF-aggregation loop of
`SimplexTree<N>::collectChildren` (lines 420–474): child corners whose type
is not AMBIGUOUS are skipped; for the others every subspace `j` passing
`contributionValid` adds its QEF into the parent subspace `collectTarget`.
The child subspace QEF states are abstracted by `cqef` valued in any
additive commutative monoid (the spec defines `QEF::+=` as componentwise
addition); parent subspace QEFs start from the pool's all-zero reset
state. -/
def collectQEFSums {Q : Type} [AddCommMonoid Q] (n : ℕ)
    (ctype : ℕ → Interval) (cqef : ℕ → ℕ → Q) : ℕ → Q :=
  (List.range (2 ^ n)).foldl
    (fun acc i =>
      if ctype i ≠ Interval.AMBIGUOUS then acc
      else
        (List.range (3 ^ n)).foldl
          (fun acc2 j =>
            if contributionValid n i j then
              updFun acc2 (collectTarget n i j)
                (acc2 (collectTarget n i j) + cqef i j)
            else acc2)
          acc)
    (fun _ => 0)

/-- The per-child data that `collectChildren` reads: whether the child is
still a branch, and its interval type. -/
structure ChildState where
  isBranch : Bool
  ctype : Interval

/-- Outcome of `collectChildren` on the parent node: its resulting interval
type, whether it still holds its children (remains a branch), and whether it
holds a `SimplexLeaf` allocation when the call returns. -/
structure CollectResult where
  ctype : Interval
  stillBranch : Bool
  hasLeaf : Bool

/-- Translated from `SimplexTree<N>::collectChildren` lines 360–372: the
parent type computed from the children's `all_empty` / `all_full` flags. -/
def collectType (n : ℕ) (cs : ℕ → ChildState) : Interval :=
  if (List.range (2 ^ n)).all (fun i => (cs i).ctype == Interval.EMPTY) then
    Interval.EMPTY
  else if (List.range (2 ^ n)).all (fun i => (cs i).ctype == Interval.FILLED) then
    Interval.FILLED
  else Interval.AMBIGUOUS

/-- Translated from `SimplexTree<N>::collectChildren` (lines 332–502),
modelling the control flow of the final call (the one that observed the
`pending` counter hit zero).  `cur` is the node's type on entry; `err` is
the maximum QEF solve error returned by the `Unroller` pass (line 480),
taken as an input here.  Note the literal `&& false` guard of line 483: the
collapse branch is disabled in the source. -/
def collectChildren (n : ℕ) (cur : Interval) (cs : ℕ → ChildState)
    (err maxErr : ℚ) : CollectResult :=
  if (List.range (2 ^ n)).any (fun i => (cs i).isBranch) then
    { ctype := cur, stillBranch := true, hasLeaf := false }
  else if collectType n cs = Interval.FILLED ∨ collectType n cs = Interval.EMPTY then
    { ctype := collectType n cs, stillBranch := false, hasLeaf := false }
  else if decide (err < maxErr) && false then
    { ctype := collectType n cs, stillBranch := false, hasLeaf := true }
  else
    { ctype := collectType n cs, stillBranch := true, hasLeaf := false }

/-- Outcome of the classification tail of `evalLeaf`: the node type and
whether the `SimplexLeaf` allocation survives the call. -/
structure EvalLeafResult where
  ctype : Interval
  hasLeaf : Bool

/-- Translated from the tail of `SimplexTree<N>::evalLeaf` (lines 302–326):
fold the per-subspace inside flags into `all_inside` / `all_outside`,
classify, and release the leaf back to the pool unless the node stays
AMBIGUOUS. -/
def evalLeafClassify (n : ℕ) (inside : ℕ → Bool) : EvalLeafResult :=
  let all_inside := (List.range (3 ^ n)).all (fun i => inside i)
  let all_outside := (List.range (3 ^ n)).all (fun i => !(inside i))
  let t := if all_inside then Interval.FILLED
           else if all_outside then Interval.EMPTY
           else Interval.AMBIGUOUS
  { ctype := t, hasLeaf := t == Interval.AMBIGUOUS }

/-- Result of `evalInterval`: the node type it stores, whether it called
`done()`, and which tape handle it returned. -/
structure EvalIntervalResult where
  ctype : Interval
  doneCalled : Bool
  retTape : ℕ

/-- Translated from `SimplexTree<N>::evalInterval` (lines 107–130).  `raw`
is `Interval::state(o.first)`, `safe` is `eval.isSafe()`, `tape` the handle
passed in and `pushed` the narrowed handle `o.second`; tape handles are
abstract tokens. -/
def evalInterval (raw : Interval) (safe : Bool) (tape pushed : ℕ) :
    EvalIntervalResult :=
  if !safe then
    { ctype := Interval.AMBIGUOUS, doneCalled := false, retTape := tape }
  else if raw = Interval.FILLED ∨ raw = Interval.EMPTY then
    { ctype := raw, doneCalled := true, retTape := pushed }
  else
    { ctype := raw, doneCalled := false, retTape := pushed }

/-- Translated from `SimplexTree<N>::saveVertexSigns` (lines 504–534) for a
cell with `m = 3^N` subspaces.  `f i` is the evaluator's value at subspace
`i`'s vertex (the idealised real arithmetic of the oracle, in ℚ),
`featInside i` the feature evaluator's `isInside` answer there, and `ins0`
the inside flags before the call (borrowed subspaces keep theirs). -/
def saveVertexSigns (m : ℕ) (solved : ℕ → Bool) (f : ℕ → ℚ)
    (featInside : ℕ → Bool) (ins0 : ℕ → Bool) : ℕ → Bool :=
  (List.range m).foldl
    (fun ins i =>
      if solved i then ins
      else updFun ins i (if f i = 0 then featInside i else decide (f i < 0)))
    ins0

/-- Global index store: subspace-object id → assigned index (0 means
unassigned), standing in for the `index` field of the shared
`SimplexLeafSubspace` objects. -/
abbrev Store := ℕ → ℕ

/-- Modelled from the spec: `SimplexNeighbors::getIndex(i)` returns the
index already assigned to a shared subspace, if any — a subspace reachable
through a sharing neighbor reports its stored index when that index is
nonzero; unshared subspaces are invisible to neighbors and report 0. -/
def getIndex (shared : ℕ → Bool) (σ : Store) (x : ℕ) : ℕ :=
  if shared x then σ x else 0

/-- Translated from the leaf body of `assignIndices` (lines 593–600): one
subspace visit — reuse the neighbor-visible index when nonzero, otherwise
take the next counter value. -/
def visitSub (shared : ℕ → Bool) (st : ℕ × Store) (x : ℕ) : ℕ × Store :=
  let nb := getIndex shared st.2 x
  if nb ≠ 0 then (st.1, updFun st.2 x nb)
  else (st.1 + 1, updFun st.2 x st.1)

/-- The subspace visits of one leaf, in subspace order. -/
def processSeq (shared : ℕ → Bool) (xs : List ℕ) (st : ℕ × Store) : ℕ × Store :=
  xs.foldl (visitSub shared) st

/-- A built simplex tree for the indexing pass: a branch with its children
in corner order, or a non-branch node that either kept its `SimplexLeaf`
(`some` of the `3^N` subspace-object ids, in subspace order — the AMBIGUOUS
case) or released it (`none` — the EMPTY/FILLED case, cf. `evalLeaf`). -/
inductive STree : Type where
  | leaf : Option (List ℕ) → STree
  | branch : List STree → STree

/-- The subspace-object ids of a tree, in the depth-first order in which
`assignIndices` visits them. -/
def idsTree : STree → List ℕ
  | .leaf none => []
  | .leaf (some subs) => subs
  | .branch [] => []
  | .branch (c :: cs) => idsTree c ++ idsTree (.branch cs)

/-- Modelled from the spec: a subspace object is shared when more than one
leaf references it (sharing is the refcounted borrowing of §4.5/§4.7). -/
def sharedInTree (t : STree) (x : ℕ) : Bool :=
  decide (2 ≤ (idsTree t).count x)

/-- Translated from `SimplexTree<N>::assignIndices(uint64_t&, …)`
(lines 583–602): depth-first walk threading the counter and the subspace
index store. -/
def assignIndicesTree (shared : ℕ → Bool) : STree → ℕ × Store → ℕ × Store
  | .leaf none, st => st
  | .leaf (some subs), st => processSeq shared subs st
  | .branch [], st => st
  | .branch (c :: cs), st =>
      assignIndicesTree shared (.branch cs) (assignIndicesTree shared c st)

/-- Translated from `SimplexTree<N>::assignIndices()` (lines 576–581): the
walk starts with counter 1 and an all-unassigned store. -/
def assignIndices (t : STree) : ℕ × Store :=
  assignIndicesTree (sharedInTree t) t (1, fun _ => 0)

/-- A concrete 2D tree: a root whose four children are AMBIGUOUS leaves,
with subspace-object ids laid out exactly as neighbor sharing forces them
to be (shared corners and edges use one id; 0–8 grid points, 9–14
horizontal edges, 15–20 vertical edges, 21–24 cell interiors). -/
def tree2x2 : STree :=
  .branch
    [ .leaf (some [0, 9, 1, 15, 21, 16, 3, 11, 4])
    , .leaf (some [1, 10, 2, 16, 22, 17, 4, 12, 5])
    , .leaf (some [3, 11, 4, 18, 23, 19, 6, 13, 7])
    , .leaf (some [4, 12, 5, 19, 24, 20, 7, 14, 8]) ]

/-- The subspace-object ids of `tree2x2` in visit order, written out. -/
def ids2x2 : List ℕ :=
  [0, 9, 1, 15, 21, 16, 3, 11, 4,
   1, 10, 2, 16, 22, 17, 4, 12, 5,
   3, 11, 4, 18, 23, 19, 6, 13, 7,
   4, 12, 5, 19, 24, 20, 7, 14, 8]

/-! ### Helper lemmas -/

theorem updFun_self {Q : Type} (f : ℕ → Q) (x : ℕ) (v : Q) :
    updFun f x v x = v := by
  simp [updFun]

theorem updFun_ne {Q : Type} (f : ℕ → Q) (x : ℕ) (v : Q) {y : ℕ}
    (h : y ≠ x) : updFun f x v y = f y := by
  simp [updFun, h]

theorem updFun_id {Q : Type} (f : ℕ → Q) (x : ℕ) :
    updFun f x (f x) = f := by
  funext y
  by_cases h : y = x
  · subst h; simp [updFun]
  · simp [updFun, h]

theorem maskOf_testBit : ∀ (n : ℕ) (p : ℕ → Bool) (d : ℕ),
    (maskOf n p).testBit d = (decide (d < n) && p d)
  | 0, p, d => by simp [maskOf, Nat.zero_testBit]
  | n + 1, p, 0 => by
      simp [maskOf, Nat.testBit_bit_zero]
  | n + 1, p, d + 1 => by
      rw [maskOf, Nat.testBit_bit_succ, maskOf_testBit n _ d]
      simp [Nat.succ_lt_succ_iff]

theorem foldl_and_all {α : Type} (h g : α → Bool) :
    ∀ (l : List α) (b : Bool),
      l.foldl (fun v d => if h d then v && g d else v) b
        = (b && l.all (fun d => !h d || g d))
  | [], b => by simp
  | d :: l, b => by
      rw [List.foldl_cons, foldl_and_all h g l, List.all_cons]
      by_cases hd : h d <;> cases b <;> simp [hd]

theorem contributionValid_iff (n c j : ℕ) :
    contributionValid n c j = true ↔
      ∀ d, d < n → digit j d ≠ 1 → (digit j d = 2 ∨ c.testBit d = true) := by
  rw [contributionValid, foldl_and_all]
  simp only [Bool.true_and, List.all_eq_true, List.mem_range,
    fixedMask, posMask, maskOf_testBit]
  constructor
  · intro h d hd hfix
    have := h d hd
    simp [hd, hfix] at this
    rcases this with h2 | hc
    · exact Or.inl h2
    · exact Or.inr hc
  · intro h d hd
    by_cases hfix : digit j d = 1
    · simp [hd, hfix]
    · rcases h d hd hfix with h2 | hc
      · simp [hd, hfix, h2]
      · simp [hd, hfix, hc]

theorem contains_iff (n a b : ℕ) :
    contains n a b = true ↔
      ∀ d, d < n → digit a d ≠ 1 → digit b d = digit a d := by
  rw [contains]
  simp only [List.all_eq_true, List.mem_range, Bool.or_eq_true, beq_iff_eq]
  constructor
  · intro h d hd ha
    rcases h d hd with h1 | h2
    · exact absurd h1 ha
    · exact h2.symm
  · intro h d hd
    by_cases ha : digit a d = 1
    · exact Or.inl ha
    · exact Or.inr (h d hd ha).symm

theorem contains_refl {n s : ℕ} : contains n s s = true := by
  rw [contains_iff]
  intro d _ _
  rfl

theorem contains_dimension_le {n s r : ℕ} (h : contains n s r = true) :
    dimension n r ≤ dimension n s := by
  rw [contains_iff] at h
  simp only [dimension, ← List.countP_eq_length_filter]
  refine List.countP_mono_left ?_
  intro d hd hr
  simp only [List.mem_range] at hd
  simp only [beq_iff_eq] at hr ⊢
  by_contra hs
  have := h d hd hs
  rw [hr] at this
  exact hs this.symm

theorem inner_fold_apply {Q : Type} [AddCommMonoid Q] (n i : ℕ)
    (cqef : ℕ → ℕ → Q) (t : ℕ) :
    ∀ (l : List ℕ) (acc : ℕ → Q),
      (l.foldl
        (fun acc2 j =>
          if contributionValid n i j then
            updFun acc2 (collectTarget n i j)
              (acc2 (collectTarget n i j) + cqef i j)
          else acc2)
        acc) t
      = acc t
        + ((l.filter (fun j =>
              contributionValid n i j && (collectTarget n i j == t))).map
            (fun j => cqef i j)).sum
  | [], acc => by simp
  | j :: l, acc => by
      rw [List.foldl_cons, inner_fold_apply n i cqef t l]
      by_cases hv : contributionValid n i j
      · by_cases ht : collectTarget n i j = t
        · subst ht
          simp [hv, updFun_self, add_assoc]
        · have : t ≠ collectTarget n i j := fun h => ht h.symm
          simp [hv, ht, updFun_ne _ _ _ this]
      · simp [hv]

theorem outer_fold_apply {Q : Type} [AddCommMonoid Q] (n : ℕ)
    (ctype : ℕ → Interval) (cqef : ℕ → ℕ → Q) (t : ℕ) :
    ∀ (l : List ℕ) (acc : ℕ → Q),
      (l.foldl
        (fun acc i =>
          if ctype i ≠ Interval.AMBIGUOUS then acc
          else
            (List.range (3 ^ n)).foldl
              (fun acc2 j =>
                if contributionValid n i j then
                  updFun acc2 (collectTarget n i j)
                    (acc2 (collectTarget n i j) + cqef i j)
                else acc2)
              acc)
        acc) t
      = acc t
        + ((l.filter (fun i => ctype i == Interval.AMBIGUOUS)).map
            (fun i =>
              (((List.range (3 ^ n)).filter (fun j =>
                  contributionValid n i j && (collectTarget n i j == t))).map
                (fun j => cqef i j)).sum)).sum
  | [], acc => by simp
  | i :: l, acc => by
      rw [List.foldl_cons, outer_fold_apply n ctype cqef t l]
      by_cases hi : ctype i = Interval.AMBIGUOUS
      · simp only [hi, ne_eq, not_true_eq_false, if_false, ite_false]
        rw [inner_fold_apply]
        simp [hi, add_assoc]
      · simp [hi]

theorem foldl_signs_untouched (solved : ℕ → Bool) (v : ℕ → Bool) :
    ∀ (l : List ℕ) (a : ℕ → Bool) (i : ℕ), i ∉ l →
      (l.foldl
        (fun ins k => if solved k then ins else updFun ins k (v k)) a) i = a i
  | [], a, i, _ => rfl
  | k :: l, a, i, h => by
      have hne : i ≠ k := fun hik => h (hik ▸ List.mem_cons_self k l)
      have hl : i ∉ l := fun hil => h (List.mem_cons_of_mem k hil)
      rw [List.foldl_cons, foldl_signs_untouched solved v l _ i hl]
      by_cases hs : solved k
      · simp [hs]
      · simp [hs, updFun_ne _ _ _ hne]

theorem foldl_signs_value (solved : ℕ → Bool) (v : ℕ → Bool) :
    ∀ (l : List ℕ) (a : ℕ → Bool) (i : ℕ), l.Nodup → i ∈ l →
      solved i = false →
      (l.foldl
        (fun ins k => if solved k then ins else updFun ins k (v k)) a) i = v i
  | [], _, i, _, hmem, _ => absurd hmem (List.not_mem_nil i)
  | k :: l, a, i, hnd, hmem, hsol => by
      rcases List.mem_cons.mp hmem with hik | hil
      · subst hik
        have hnl : i ∉ l := (List.nodup_cons.mp hnd).1
        rw [List.foldl_cons, foldl_signs_untouched solved v l _ i hnl, hsol]
        simp [updFun_self]
      · exact by
          rw [List.foldl_cons]
          exact foldl_signs_value solved v l _ i (List.nodup_cons.mp hnd).2
            hil hsol

theorem processSeq_append (shared : ℕ → Bool) (a b : List ℕ) (st : ℕ × Store) :
    processSeq shared (a ++ b) st = processSeq shared b (processSeq shared a st) := by
  simp [processSeq, List.foldl_append]

theorem assign_eq_process (shared : ℕ → Bool) :
    ∀ (t : STree) (st : ℕ × Store),
      assignIndicesTree shared t st = processSeq shared (idsTree t) st
  | .leaf none, st => by simp [assignIndicesTree, idsTree, processSeq]
  | .leaf (some subs), st => by simp [assignIndicesTree, idsTree]
  | .branch [], st => by simp [assignIndicesTree, idsTree, processSeq]
  | .branch (c :: cs), st => by
      rw [assignIndicesTree, idsTree, processSeq_append,
        assign_eq_process shared c st,
        assign_eq_process shared (.branch cs) (processSeq shared (idsTree c) st)]

theorem processSeq_spec (sh : ℕ → Bool) :
    ∀ (xs : List ℕ) (c : ℕ) (σ : Store), 0 < c → (∀ x, σ x < c) →
    (∀ x, sh x = false → σ x ≠ 0 → x ∉ xs) →
    (∀ x, sh x = false → xs.count x ≤ 1) →
    (∀ a b, σ a ≠ 0 → σ a = σ b → a = b) →
    c ≤ (processSeq sh xs (c, σ)).1
    ∧ (∀ x, σ x ≠ 0 → (processSeq sh xs (c, σ)).2 x = σ x)
    ∧ (∀ x ∈ xs, (processSeq sh xs (c, σ)).2 x ≠ 0)
    ∧ (∀ x, (processSeq sh xs (c, σ)).2 x < (processSeq sh xs (c, σ)).1)
    ∧ (∀ v, c ≤ v → v < (processSeq sh xs (c, σ)).1 →
        ∃ x ∈ xs, (processSeq sh xs (c, σ)).2 x = v)
    ∧ (∀ a b, (processSeq sh xs (c, σ)).2 a ≠ 0 →
        (processSeq sh xs (c, σ)).2 a = (processSeq sh xs (c, σ)).2 b → a = b)
  | [], c, σ, hc, hlt, _, _, hinj => by
      refine ⟨le_refl c, fun x _ => rfl, fun x hx => absurd hx (List.not_mem_nil x),
        hlt, fun v hv hv2 => absurd (lt_of_le_of_lt hv hv2) (lt_irrefl c), hinj⟩
  | x₀ :: rest, c, σ, hc, hlt, hfree, hcount, hinj => by
      have hstep : processSeq sh (x₀ :: rest) (c, σ)
          = processSeq sh rest (visitSub sh (c, σ) x₀) := rfl
      by_cases hn : getIndex sh σ x₀ ≠ 0
      · -- reuse: the stored index is rewritten unchanged
        have hsh : sh x₀ = true := by
          by_cases hsh : sh x₀ = true
          · exact hsh
          · rw [Bool.not_eq_true] at hsh
            exact absurd (by simp [getIndex, hsh]) hn
        have hσx : σ x₀ ≠ 0 := by
          intro h0
          exact hn (by simp [getIndex, hsh, h0])
        have hvisit : visitSub sh (c, σ) x₀ = (c, σ) := by
          simp [visitSub, hn, getIndex, hsh, hσx, updFun_id]
        rw [hstep, hvisit]
        obtain ⟨q0, q1, q2, q3, q5, q6⟩ :=
          processSeq_spec sh rest c σ hc hlt
            (fun x hx h0 hmem => hfree x hx h0 (List.mem_cons_of_mem x₀ hmem))
            (fun x hx => le_trans (List.count_le_count_cons x x₀ rest)
              (hcount x hx))
            hinj
        refine ⟨q0, q1, ?_, q3, ?_, q6⟩
        · intro x hx
          rcases List.mem_cons.mp hx with h | h
          · subst h; rw [q1 x hσx]; exact hσx
          · exact q2 x h
        · intro v hv hv2
          obtain ⟨x, hx, he⟩ := q5 v hv hv2
          exact ⟨x, List.mem_cons_of_mem x₀ hx, he⟩
      · -- fresh assignment from the counter
        push_neg at hn
        have hσ0 : σ x₀ = 0 := by
          by_cases hsh : sh x₀ = true
          · simpa [getIndex, hsh] using hn
          · rw [Bool.not_eq_true] at hsh
            by_contra h0
            exact hfree x₀ hsh h0 (List.mem_cons_self x₀ rest)
        have hvisit : visitSub sh (c, σ) x₀ = (c + 1, updFun σ x₀ c) := by
          simp [visitSub, hn]
        rw [hstep, hvisit]
        have hlt' : ∀ x, updFun σ x₀ c x < c + 1 := by
          intro x
          by_cases hx : x = x₀
          · subst hx; rw [updFun_self]; omega
          · rw [updFun_ne _ _ _ hx]; exact lt_trans (hlt x) (Nat.lt_succ_self c)
        have hfree' : ∀ x, sh x = false → updFun σ x₀ c x ≠ 0 → x ∉ rest := by
          intro x hx h0
          by_cases hxx : x = x₀
          · subst hxx
            have hc1 := hcount x hx
            rw [List.count_cons_self] at hc1
            intro hmem
            have hne : rest.count x ≠ 0 := fun h => (List.count_eq_zero.mp h) hmem
            omega
          · rw [updFun_ne _ _ _ hxx] at h0
            intro hmem
            exact hfree x hx h0 (List.mem_cons_of_mem x₀ hmem)
        have hcount' : ∀ x, sh x = false → rest.count x ≤ 1 := by
          intro x hx
          exact le_trans (List.count_le_count_cons x x₀ rest) (hcount x hx)
        have hinj' : ∀ a b, updFun σ x₀ c a ≠ 0 →
            updFun σ x₀ c a = updFun σ x₀ c b → a = b := by
          intro a b ha hab
          by_cases haa : a = x₀ <;> by_cases hbb : b = x₀
          · rw [haa, hbb]
          · subst haa
            rw [updFun_self, updFun_ne _ _ _ hbb] at hab
            exact absurd hab.symm (Nat.ne_of_lt (hlt b))
          · subst hbb
            rw [updFun_self, updFun_ne _ _ _ haa] at hab
            exact absurd hab (Nat.ne_of_lt (hlt a))
          · rw [updFun_ne _ _ _ haa] at ha hab
            rw [updFun_ne _ _ _ hbb] at hab
            exact hinj a b ha hab
        obtain ⟨q0, q1, q2, q3, q5, q6⟩ :=
          processSeq_spec sh rest (c + 1) (updFun σ x₀ c)
            (Nat.lt_of_lt_of_le hc (Nat.le_succ c)) hlt' hfree' hcount' hinj'
        have hx₀val : (processSeq sh rest (c + 1, updFun σ x₀ c)).2 x₀ = c := by
          rw [q1 x₀ (by rw [updFun_self]; omega), updFun_self]
        refine ⟨le_trans (Nat.le_succ c) q0, ?_, ?_, q3, ?_, q6⟩
        · intro x hx
          have hxx : x ≠ x₀ := fun h => by rw [h, hσ0] at hx; exact hx rfl
          rw [q1 x (by rw [updFun_ne _ _ _ hxx]; exact hx), updFun_ne _ _ _ hxx]
        · intro x hx
          rcases List.mem_cons.mp hx with h | h
          · subst h; rw [hx₀val]; omega
          · exact q2 x h
        · intro v hv hv2
          by_cases hvc : v = c
          · exact ⟨x₀, List.mem_cons_self x₀ rest, by rw [hx₀val, hvc]⟩
          · obtain ⟨x, hxm, he⟩ := q5 v (by omega) hv2
            exact ⟨x, List.mem_cons_of_mem x₀ hxm, he⟩

theorem processSeq_shared_stable (sh : ℕ → Bool) :
    ∀ (xs : List ℕ) (c : ℕ) (σ : Store),
      (∀ y ∈ xs, sh y = true → σ y ≠ 0) →
      ∀ x, sh x = true → (processSeq sh xs (c, σ)).2 x = σ x
  | [], _, _, _, _, _ => rfl
  | y₀ :: rest, c, σ, hpre, x, hx => by
      have hstep : processSeq sh (y₀ :: rest) (c, σ)
          = processSeq sh rest (visitSub sh (c, σ) y₀) := rfl
      by_cases hsh : sh y₀ = true
      · have h0 : σ y₀ ≠ 0 := hpre y₀ (List.mem_cons_self y₀ rest) hsh
        have hvisit : visitSub sh (c, σ) y₀ = (c, σ) := by
          simp [visitSub, getIndex, hsh, h0, updFun_id]
        rw [hstep, hvisit]
        exact processSeq_shared_stable sh rest c σ
          (fun y hy => hpre y (List.mem_cons_of_mem y₀ hy)) x hx
      · have hvisit : visitSub sh (c, σ) y₀ = (c + 1, updFun σ y₀ c) := by
          simp [visitSub, getIndex, hsh]
        have hxy : x ≠ y₀ := fun h => by rw [h] at hx; exact hsh hx
        rw [hstep, hvisit]
        rw [processSeq_shared_stable sh rest (c + 1) (updFun σ y₀ c)
          (fun y hy hyt => by
            have hyy : y ≠ y₀ := fun h => by rw [h] at hyt; exact hsh hyt
            rw [updFun_ne _ _ _ hyy]
            exact hpre y (List.mem_cons_of_mem y₀ hy) hyt) x hx]
        exact updFun_ne _ _ _ hxy

theorem assignIndices_base_spec (t : STree) :
    1 ≤ (assignIndices t).1
    ∧ (∀ x ∈ idsTree t, (assignIndices t).2 x ≠ 0)
    ∧ (∀ x, (assignIndices t).2 x < (assignIndices t).1)
    ∧ (∀ v, 1 ≤ v → v < (assignIndices t).1 →
        ∃ x ∈ idsTree t, (assignIndices t).2 x = v)
    ∧ (∀ a b, (assignIndices t).2 a ≠ 0 →
        (assignIndices t).2 a = (assignIndices t).2 b → a = b) := by
  have heq : assignIndices t
      = processSeq (sharedInTree t) (idsTree t) (1, fun _ => 0) := by
    rw [assignIndices, assign_eq_process]
  obtain ⟨q0, _, q2, q3, q5, q6⟩ :=
    processSeq_spec (sharedInTree t) (idsTree t) 1 (fun _ => 0) Nat.one_pos
      (fun _ => Nat.one_pos)
      (fun x _ h0 => absurd rfl h0)
      (fun x hx => by
        simp only [sharedInTree, decide_eq_false_iff_not, not_le] at hx
        omega)
      (fun a b h0 _ => absurd rfl h0)
  rw [heq]
  exact ⟨q0, q2, q3, q5, q6⟩

theorem collectChildren_hasLeaf_false (n : ℕ) (cur : Interval)
    (cs : ℕ → ChildState) (err maxErr : ℚ) :
    (collectChildren n cur cs err maxErr).hasLeaf = false := by
  rw [collectChildren]
  split_ifs with h1 h2 h3
  · rfl
  · rfl
  · simp at h3
  · rfl

theorem idsTree_tree2x2 : idsTree tree2x2 = ids2x2 := by
  simp [tree2x2, idsTree, ids2x2]

theorem sharedInTree_tree2x2 :
    sharedInTree tree2x2 = fun x => decide (2 ≤ ids2x2.count x) := by
  funext x
  rw [sharedInTree, idsTree_tree2x2]

theorem assignIndices_tree2x2_eq :
    assignIndices tree2x2
      = processSeq (fun x => decide (2 ≤ ids2x2.count x)) ids2x2
          (1, fun _ => 0) := by
  rw [assignIndices, assign_eq_process, idsTree_tree2x2, sharedInTree_tree2x2]

/-! ### Claim theorems -/

/-- C1 (code bug): `collectChildren` is supposed to map a child subspace to
the parent subspace that keeps floating axes floating, keeps a fixed axis
fixed exactly when the child corner agrees with the subspace's position on
that axis, and relaxes it to floating otherwise — as the source's own
comment states.  The source compares against `child.i & (1 << N)` instead
of `child.i & (1 << d)`, which is always zero, so a fixed-HIGH axis is
always relaxed and a fixed-LOW axis always kept, regardless of the corner.
Concretely, for N = 2, child corner 3 (HIGH on x and y) and subspace j = 2
(x fixed HIGH, y fixed LOW) — an accepted contribution — the code routes the
QEF to parent subspace 1 (x floating, y fixed LOW) while the claimed
mapping yields 5 (x fixed HIGH, y floating); the code's answer is the same
for every corner. -/
theorem collectTarget_bug :
    contributionValid 2 3 2 = true
  ∧ collectTarget 2 3 2 = 1
  ∧ intendedTarget 2 3 2 = 5
  ∧ collectTarget 2 3 2 ≠ intendedTarget 2 3 2
  ∧ collectTarget 2 0 2 = 1 ∧ collectTarget 2 1 2 = 1
  ∧ collectTarget 2 2 2 = 1 ∧ intendedTarget 2 1 2 = 2 := by decide

/-- C2 counterexample: solving subspace s = 0 (the low-low corner of a 2D
cell), the Unroller sums only the QEF of subspace 0 itself, not the QEFs of
the higher-dimensional subspaces r ⊇ s (r ∈ {0, 1, 3, 4}, i.e. the corner,
its two incident edges and the cell body) that the claim describes. -/
theorem unroller_sources_counterexample :
    (unrollerSolveCall 2 0).sources = [0]
  ∧ claimedQEFSources 2 0 = [0, 1, 3, 4]
  ∧ (unrollerSolveCall 2 0).sources ≠ claimedQEFSources 2 0 := by decide

/-- C2 (amended): in the per-leaf subspace vertex solve, for a subspace `s`
the QEF minimized is the sum, over all subspaces `r` of the same cell that
`s` contains (every axis fixed in `s` fixed identically in `r` — the same-
or lower-dimensional subspaces lying in `s`'s closure, so in particular
`s` itself and never a strictly higher-dimensional subspace), of `r`'s QEF
projected to `s`'s floating axes, and the minimization is `solveBounded`
over the region restricted to `s`'s floating axes. -/
theorem unroller_sources_spec (n s : ℕ) (hs : s < 3 ^ n) :
    s ∈ (unrollerSolveCall n s).sources
  ∧ (∀ r ∈ (unrollerSolveCall n s).sources,
        dimension n r ≤ dimension n s
        ∧ ∀ d, d < n → digit s d ≠ 1 → digit r d = digit s d)
  ∧ (∀ r, r < 3 ^ n → (∀ d, d < n → digit s d ≠ 1 → digit r d = digit s d) →
        r ∈ (unrollerSolveCall n s).sources)
  ∧ (unrollerSolveCall n s).projMask = floatingMask n s
  ∧ (unrollerSolveCall n s).regionMask = floatingMask n s := by
  refine ⟨?_, ?_, ?_, rfl, rfl⟩
  · simp only [unrollerSolveCall, List.mem_filter, List.mem_range]
    exact ⟨hs, contains_refl⟩
  · intro r hr
    simp only [unrollerSolveCall, List.mem_filter, List.mem_range] at hr
    exact ⟨contains_dimension_le hr.2, (contains_iff n s r).mp hr.2⟩
  · intro r hr hd
    simp only [unrollerSolveCall, List.mem_filter, List.mem_range]
    exact ⟨hr, (contains_iff n s r).mpr hd⟩

/-- Witness for the amended C2 at a concrete input: the 2D cell body
subspace s = 4 is among its own QEF sources. -/
theorem unroller_sources_spec_witness :
    4 < 3 ^ 2 ∧ 4 ∈ (unrollerSolveCall 2 4).sources :=
  ⟨by decide, (unroller_sources_spec 2 4 (by decide)).1⟩

/-- C3: when every child is a non-branch node and the children are neither
uniformly EMPTY nor uniformly FILLED, `collectChildren` never promotes the
parent into a collapsed leaf: for every error value and every `max_err`,
the tentative leaf is discarded (the collapse guard carries a literal
`&& false`), the parent keeps its children, and its type is AMBIGUOUS. -/
theorem collectChildren_never_collapses (n : ℕ) (cur : Interval)
    (cs : ℕ → ChildState) (err maxErr : ℚ)
    (hb : ∀ i, i < 2 ^ n → (cs i).isBranch = false)
    (he : ¬ ∀ i, i < 2 ^ n → (cs i).ctype = Interval.EMPTY)
    (hf : ¬ ∀ i, i < 2 ^ n → (cs i).ctype = Interval.FILLED) :
    (collectChildren n cur cs err maxErr).stillBranch = true
  ∧ (collectChildren n cur cs err maxErr).hasLeaf = false
  ∧ (collectChildren n cur cs err maxErr).ctype = Interval.AMBIGUOUS := by
  have hany : ((List.range (2 ^ n)).any fun i => (cs i).isBranch) = false := by
    rw [Bool.eq_false_iff]
    intro h
    obtain ⟨i, hi, hbi⟩ := List.any_eq_true.mp h
    rw [List.mem_range] at hi
    rw [hb i hi] at hbi
    exact Bool.false_ne_true hbi
  have hempty : ((List.range (2 ^ n)).all
      fun i => (cs i).ctype == Interval.EMPTY) = false := by
    rw [Bool.eq_false_iff]
    intro h
    exact he (fun i hi =>
      beq_iff_eq.mp (List.all_eq_true.mp h i (List.mem_range.mpr hi)))
  have hfull : ((List.range (2 ^ n)).all
      fun i => (cs i).ctype == Interval.FILLED) = false := by
    rw [Bool.eq_false_iff]
    intro h
    exact hf (fun i hi =>
      beq_iff_eq.mp (List.all_eq_true.mp h i (List.mem_range.mpr hi)))
  simp [collectChildren, collectType, hany, hempty, hfull]

/-- Witness for C3: one EMPTY and one FILLED leaf child in 1D. -/
theorem collectChildren_never_collapses_witness :
    (collectChildren 1 Interval.AMBIGUOUS
      (fun i => if i = 0 then ⟨false, Interval.EMPTY⟩ else ⟨false, Interval.FILLED⟩)
      0 1).stillBranch = true
  ∧ (collectChildren 1 Interval.AMBIGUOUS
      (fun i => if i = 0 then ⟨false, Interval.EMPTY⟩ else ⟨false, Interval.FILLED⟩)
      0 1).hasLeaf = false
  ∧ (collectChildren 1 Interval.AMBIGUOUS
      (fun i => if i = 0 then ⟨false, Interval.EMPTY⟩ else ⟨false, Interval.FILLED⟩)
      0 1).ctype = Interval.AMBIGUOUS :=
  collectChildren_never_collapses 1 Interval.AMBIGUOUS _ 0 1
    (by decide) (by decide) (by decide)

/-- C4: after `evalLeaf` on an ambiguous terminal cell the node type is
FILLED iff every one of the `3^N` subspace vertices is inside and EMPTY iff
every one is outside (AMBIGUOUS otherwise), and a non-branch node whose
type came out FILLED or EMPTY — whether from `evalLeaf` or from
`collectChildren` — holds no `SimplexLeaf` allocation. -/
theorem leaf_classification_and_release (n : ℕ) (inside : ℕ → Bool)
    (cur : Interval) (cs : ℕ → ChildState) (err maxErr : ℚ) :
    ((evalLeafClassify n inside).ctype = Interval.FILLED
      ↔ ∀ i, i < 3 ^ n → inside i = true)
  ∧ ((evalLeafClassify n inside).ctype = Interval.EMPTY
      ↔ ∀ i, i < 3 ^ n → inside i = false)
  ∧ ((evalLeafClassify n inside).ctype = Interval.FILLED
      ∨ (evalLeafClassify n inside).ctype = Interval.EMPTY
      → (evalLeafClassify n inside).hasLeaf = false)
  ∧ ((collectChildren n cur cs err maxErr).ctype = Interval.FILLED
      ∨ (collectChildren n cur cs err maxErr).ctype = Interval.EMPTY
      → (collectChildren n cur cs err maxErr).hasLeaf = false) := by
  have h3 : 0 < 3 ^ n := pow_pos (by norm_num) n
  by_cases hin : ((List.range (3 ^ n)).all fun i => inside i) = true
  · have hall : ∀ i, i < 3 ^ n → inside i = true :=
      fun i hi => List.all_eq_true.mp hin i (List.mem_range.mpr hi)
    have hnot : ¬ ∀ i, i < 3 ^ n → inside i = false := by
      intro h
      have h1 := hall 0 h3
      have h2 := h 0 h3
      rw [h1] at h2
      exact Bool.noConfusion h2
    have ht : (evalLeafClassify n inside).ctype = Interval.FILLED := by
      simp [evalLeafClassify, hin]
    refine ⟨⟨fun _ => hall, fun _ => ht⟩,
      ⟨fun h => Interval.noConfusion (ht.symm.trans h), fun h => absurd h hnot⟩,
      fun _ => ?_, fun _ => collectChildren_hasLeaf_false n cur cs err maxErr⟩
    simp [evalLeafClassify, hin]
  · by_cases hout : ((List.range (3 ^ n)).all fun i => !(inside i)) = true
    · have hall : ∀ i, i < 3 ^ n → inside i = false := fun i hi => by
        have := List.all_eq_true.mp hout i (List.mem_range.mpr hi)
        simpa using this
      have hnot : ¬ ∀ i, i < 3 ^ n → inside i = true := by
        intro h
        have h1 := hall 0 h3
        have h2 := h 0 h3
        rw [h1] at h2
        exact Bool.noConfusion h2
      have ht : (evalLeafClassify n inside).ctype = Interval.EMPTY := by
        simp [evalLeafClassify, hin, hout]
      refine ⟨⟨fun h => Interval.noConfusion (ht.symm.trans h),
          fun h => absurd h hnot⟩,
        ⟨fun _ => hall, fun _ => ht⟩,
        fun _ => ?_, fun _ => collectChildren_hasLeaf_false n cur cs err maxErr⟩
      simp [evalLeafClassify, hin, hout]
    · have hnin : ¬ ∀ i, i < 3 ^ n → inside i = true := by
        intro h
        exact hin (List.all_eq_true.mpr
          (fun i hi => h i (List.mem_range.mp hi)))
      have hnout : ¬ ∀ i, i < 3 ^ n → inside i = false := by
        intro h
        exact hout (List.all_eq_true.mpr
          (fun i hi => by simp [h i (List.mem_range.mp hi)]))
      have ht : (evalLeafClassify n inside).ctype = Interval.AMBIGUOUS := by
        simp [evalLeafClassify, hin, hout]
      refine ⟨⟨fun h => Interval.noConfusion (ht.symm.trans h),
          fun h => absurd h hnin⟩,
        ⟨fun h => Interval.noConfusion (ht.symm.trans h),
          fun h => absurd h hnout⟩,
        fun hc => ?_, fun _ => collectChildren_hasLeaf_false n cur cs err maxErr⟩
      rcases hc with hc | hc
      · exact absurd (ht.symm.trans hc) (fun h => Interval.noConfusion h)
      · exact absurd (ht.symm.trans hc) (fun h => Interval.noConfusion h)


/-- Witness for C4: in 1D, a leaf whose three subspace vertices are all
inside is classified FILLED and keeps no leaf allocation. -/
theorem leaf_classification_and_release_witness :
    (evalLeafClassify 1 (fun _ => true)).ctype = Interval.FILLED
  ∧ (evalLeafClassify 1 (fun _ => true)).hasLeaf = false := by
  have h := leaf_classification_and_release 1 (fun _ => true)
    Interval.AMBIGUOUS (fun _ => ⟨false, Interval.EMPTY⟩) 0 1
  have h1 : (evalLeafClassify 1 (fun _ => true)).ctype = Interval.FILLED :=
    h.1.mpr (fun _ _ => rfl)
  exact ⟨h1, h.2.2.1 (Or.inl h1)⟩

/-- C5: in `collectChildren`'s QEF aggregation, the per-(corner, subspace)
contribution passes the filter iff, for every axis fixed in subspace `j`,
either `j` lies on the HIGH side of that axis or the child corner lies on
the HIGH side of that axis. -/
theorem contribution_counted_iff (n c j : ℕ) :
    contributionValid n c j = true ↔
      ∀ d, d < n → digit j d ≠ 1 → (digit j d = 2 ∨ c.testBit d = true) :=
  contributionValid_iff n c j

/-- Witness for C5: corner 3, subspace 2 in 2D is counted. -/
theorem contribution_counted_iff_witness :
    contributionValid 2 3 2 = true :=
  (contribution_counted_iff 2 3 2).mpr (by decide)

/-- C6: if the interval evaluator reports it is unsafe, `evalInterval`
forces the node type to AMBIGUOUS, does not call `done()` and hands back
the original tape so construction proceeds; and `done()` is called exactly
when the node's resulting interval type is FILLED or EMPTY. -/
theorem evalInterval_unsafe_and_done (raw : Interval) (safe : Bool)
    (tape pushed : ℕ) :
    (safe = false →
      (evalInterval raw safe tape pushed).ctype = Interval.AMBIGUOUS
      ∧ (evalInterval raw safe tape pushed).doneCalled = false
      ∧ (evalInterval raw safe tape pushed).retTape = tape)
  ∧ ((evalInterval raw safe tape pushed).doneCalled = true
      ↔ ((evalInterval raw safe tape pushed).ctype = Interval.FILLED
         ∨ (evalInterval raw safe tape pushed).ctype = Interval.EMPTY)) := by
  cases safe <;> cases raw <;> simp [evalInterval]

/-- Witness for C6: an unsafe FILLED interval result is degraded to
AMBIGUOUS, not marked done, and the original tape is returned. -/
theorem evalInterval_unsafe_and_done_witness :
    (evalInterval Interval.FILLED false 7 9).ctype = Interval.AMBIGUOUS
  ∧ (evalInterval Interval.FILLED false 7 9).doneCalled = false
  ∧ (evalInterval Interval.FILLED false 7 9).retTape = 7 :=
  (evalInterval_unsafe_and_done Interval.FILLED false 7 9).1 rfl

/-- C7: for every subspace vertex whose sign is computed (not borrowed as
already solved), `saveVertexSigns` sets the inside flag from the value of
`f` at the vertex: the feature evaluator's answer when the value is exactly
zero, and `f(vert) < 0` otherwise. -/
theorem saveVertexSigns_spec (m : ℕ) (solved : ℕ → Bool) (f : ℕ → ℚ)
    (featInside : ℕ → Bool) (ins0 : ℕ → Bool) (i : ℕ)
    (him : i < m) (hsol : solved i = false) :
    saveVertexSigns m solved f featInside ins0 i
      = if f i = 0 then featInside i else decide (f i < 0) := by
  rw [saveVertexSigns]
  exact foldl_signs_value solved
    (fun k => if f k = 0 then featInside k else decide (f k < 0))
    (List.range m) ins0 i (List.nodup_range m) (List.mem_range.mpr him) hsol

/-- Witness for C7: a vertex with negative value is marked inside. -/
theorem saveVertexSigns_spec_witness :
    saveVertexSigns 1 (fun _ => false) (fun _ => (-1 : ℚ))
      (fun _ => false) (fun _ => false) 0 = true := by
  have h := saveVertexSigns_spec 1 (fun _ => false) (fun _ => (-1 : ℚ))
    (fun _ => false) (fun _ => false) 0 (by decide) rfl
  rw [h]
  norm_num

/-- C8: `assignIndices` walks the tree depth-first with a counter starting
at 1, reusing an index already visible through a sharing neighbor and
otherwise assigning the next counter value; afterwards every subspace of
every leaf that kept its `SimplexLeaf` (the AMBIGUOUS leaves) has a nonzero
index, and the assigned indices form exactly the contiguous range `[1, U]`
where `U` is the number of distinct subspace objects. -/
theorem assignIndices_dense (t : STree) :
    (∀ x ∈ idsTree t,
      1 ≤ (assignIndices t).2 x ∧ (assignIndices t).2 x < (assignIndices t).1)
  ∧ (∀ v, 1 ≤ v → v < (assignIndices t).1 →
      ∃ x ∈ idsTree t, (assignIndices t).2 x = v)
  ∧ (assignIndices t).1 = 1 + (idsTree t).dedup.length := by
  obtain ⟨q0, q2, q3, q5, q6⟩ := assignIndices_base_spec t
  refine ⟨fun x hx => ⟨Nat.one_le_iff_ne_zero.mpr (q2 x hx), q3 x⟩, q5, ?_⟩
  have hcard : (idsTree t).toFinset.card
      = (Finset.Ico 1 (assignIndices t).1).card := by
    refine Finset.card_bij (fun x _ => (assignIndices t).2 x) ?_ ?_ ?_
    · intro a ha
      have hmem := List.mem_toFinset.mp ha
      exact Finset.mem_Ico.mpr
        ⟨Nat.one_le_iff_ne_zero.mpr (q2 a hmem), q3 a⟩
    · intro a ha b hb hab
      exact q6 a b (q2 a (List.mem_toFinset.mp ha)) hab
    · intro v hv
      obtain ⟨hv1, hv2⟩ := Finset.mem_Ico.mp hv
      obtain ⟨x, hx, he⟩ := q5 v hv1 hv2
      exact ⟨x, List.mem_toFinset.mpr hx, he⟩
  rw [Nat.card_Ico, List.card_toFinset] at hcard
  omega

set_option maxRecDepth 8000 in
/-- Witness for C8: on the concrete 2×2 tree, index 5 is hit by some
subspace (the range is dense). -/
theorem assignIndices_dense_witness :
    ∃ x ∈ idsTree tree2x2, (assignIndices tree2x2).2 x = 5 :=
  (assignIndices_dense tree2x2).2.1 5 (by decide)
    (by rw [assignIndices_tree2x2_eq]; decide)

set_option maxRecDepth 8000 in
/-- C9 counterexample: on the 2×2 tree, the first `assignIndices` call
gives subspace object 15 (the left boundary edge of the first child, an
unshared subspace) index 4, but a second call gives it index 3 — the
counter lags because shared subspaces now reuse their stored indices
without consuming counter values. -/
theorem assignIndices_not_idempotent :
    (assignIndicesTree (sharedInTree tree2x2) tree2x2
        (1, (assignIndices tree2x2).2)).2 15 = 3
  ∧ (assignIndices tree2x2).2 15 = 4
  ∧ (assignIndicesTree (sharedInTree tree2x2) tree2x2
        (1, (assignIndices tree2x2).2)).2 15
      ≠ (assignIndices tree2x2).2 15 := by
  have h2 : assignIndicesTree (sharedInTree tree2x2) tree2x2
        (1, (assignIndices tree2x2).2)
      = processSeq (fun x => decide (2 ≤ ids2x2.count x)) ids2x2
          (1, (assignIndices tree2x2).2) := by
    rw [assign_eq_process, idsTree_tree2x2, sharedInTree_tree2x2]
  rw [h2, assignIndices_tree2x2_eq]
  decide

/-- C9 (amended): a second `assignIndices` call assigns to every subspace
that is shared between leaves exactly the index it received from the first
call; unshared subspaces may receive different (smaller) indices. -/
theorem assignIndices_second_pass_shared (t : STree) (x : ℕ)
    (hx : sharedInTree t x = true) :
    (assignIndicesTree (sharedInTree t) t (1, (assignIndices t).2)).2 x
      = (assignIndices t).2 x := by
  rw [assign_eq_process]
  exact processSeq_shared_stable (sharedInTree t) (idsTree t) 1
    ((assignIndices t).2)
    (fun y hy _ => (assignIndices_base_spec t).2.1 y hy) x hx

set_option maxRecDepth 8000 in
/-- Witness for the amended C9: the shared center vertex (object 4) keeps
its index across a second call. -/
theorem assignIndices_second_pass_shared_witness :
    sharedInTree tree2x2 4 = true
  ∧ (assignIndicesTree (sharedInTree tree2x2) tree2x2
      (1, (assignIndices tree2x2).2)).2 4 = (assignIndices tree2x2).2 4 :=
  ⟨by rw [sharedInTree_tree2x2]; decide,
    assignIndices_second_pass_shared tree2x2 4
      (by rw [sharedInTree_tree2x2]; decide)⟩

/-- C10: in `collectChildren`'s QEF aggregation every child whose type is
not AMBIGUOUS is skipped entirely, so each parent subspace QEF is exactly
the sum of the accepted contributions of the AMBIGUOUS children alone. -/
theorem collect_sums_over_ambiguous_only {Q : Type} [AddCommMonoid Q]
    (n : ℕ) (ctype : ℕ → Interval) (cqef : ℕ → ℕ → Q) (t : ℕ) :
    collectQEFSums n ctype cqef t
      = (((List.range (2 ^ n)).filter
            (fun i => ctype i == Interval.AMBIGUOUS)).map
          (fun i =>
            (((List.range (3 ^ n)).filter (fun j =>
                contributionValid n i j && (collectTarget n i j == t))).map
              (fun j => cqef i j)).sum)).sum := by
  rw [collectQEFSums, outer_fold_apply]
  simp

end Libfive
